import Mathlib

/-!
Verification of the frequency-histogram script in src/a.py.

The script builds `frequency_count = Counter(data)`, separates
`values = list(frequency_count.keys())` and
`frequencies = list(frequency_count.values())`, draws
`plt.bar(values, frequencies)`, sets the axis labels and title, and shows
the chart.

Python's `collections.Counter` is a dict subclass: iterating a `Counter`
built from an iterable yields the keys in order of first insertion, each
key mapped to its occurrence count.  We embed the counter as an
association list ordered by first occurrence, built by folding the input
through an insert-or-increment step, and the chart as a record of bars
(position, height pairs), axis labels and title.
-/

namespace Quriust

variable {α : Type} [DecidableEq α]

/-- One update step of `Counter`: if the key `x` is already present,
increment its count, leave other entries unchanged. -/
def bump (x : α) (p : α × Nat) : α × Nat :=
  if p.1 = x then (p.1, p.2 + 1) else p

/-- Feeding one element `x` of the data into the counter: increment the
existing entry for `x`, or append a fresh entry `(x, 1)` at the end
(Python dicts insert new keys at the end of the iteration order). -/
def counterInsert (m : List (α × Nat)) (x : α) : List (α × Nat) :=
  if m.any (fun p => decide (p.1 = x)) then m.map (bump x) else m ++ [(x, 1)]

/-- Embedding of line 7 of src/a.py, `frequency_count = Counter(data)`:
count each element of `data` in first-occurrence order. -/
def frequency_count (data : List α) : List (α × Nat) :=
  data.foldl counterInsert []

/-- Embedding of line 10, `values = list(frequency_count.keys())`. -/
def values (data : List α) : List α :=
  (frequency_count data).map Prod.fst

/-- Embedding of line 11, `frequencies = list(frequency_count.values())`. -/
def frequencies (data : List α) : List Nat :=
  (frequency_count data).map Prod.snd

/-- The chart produced by the script: bars (one position, height pair per
bar), the axis labels and the title. -/
structure Chart (α : Type) where
  bars : List (α × Nat)
  xlabel : String
  ylabel : String
  title : String

/-- Embedding of line 14, `plt.bar(values, frequencies)`: one bar per
index, positioned at the value and with the frequency as its height. -/
def plt_bar (vs : List α) (fs : List Nat) : Chart α :=
  { bars := vs.zip fs, xlabel := "", ylabel := "", title := "" }

/-- Embedding of line 17, `plt.xlabel(...)`. -/
def plt_xlabel (c : Chart α) (s : String) : Chart α :=
  { c with xlabel := s }

/-- Embedding of line 18, `plt.ylabel(...)`. -/
def plt_ylabel (c : Chart α) (s : String) : Chart α :=
  { c with ylabel := s }

/-- Embedding of line 19, `plt.title(...)`. -/
def plt_title (c : Chart α) (s : String) : Chart α :=
  { c with title := s }

/-- Embedding of line 22, `plt.show()`: displaying does not change the
chart (and, in our model, never fails). -/
def plt_show (c : Chart α) : Chart α := c

/-- The whole rendering pipeline of the script applied to an arbitrary
input sequence: bar chart from `values` and `frequencies`, then the axis
labels and the title, then show. -/
def render (data : List α) : Chart α :=
  plt_show (plt_title (plt_ylabel (plt_xlabel
    (plt_bar (values data) (frequencies data)) ("Values")) ("Frequency"))
    ("Histogram of Frequencies"))

/-- Number of occurrences of `y` in a list (specification-side observer). -/
def countOcc (y : α) : List α → Nat
  | [] => 0
  | a :: l => countOcc y l + (if a = y then 1 else 0)

/-- Count stored in the association list for key `y` (0 when the key is
absent); observer for stating lookup properties. -/
def lookupCount (m : List (α × Nat)) (y : α) : Nat :=
  match m with
  | [] => 0
  | p :: t => if p.1 = y then p.2 else lookupCount t y

/-- The distinct elements of a list in order of first occurrence
(specification-side observer). -/
def dedupFirst : List α → List α
  | [] => []
  | a :: l => a :: (dedupFirst l).filter (fun z => decide (z ≠ a))

/-- C3: on the input [1,1,2,3,3,3] the counting step returns the mapping
1 to 2, 2 to 1, 3 to 3, and on the input of strings a, b, a it returns
a to 2, b to 1 (in first-occurrence order). -/
theorem frequency_count_scenarios :
    frequency_count ([1, 1, 2, 3, 3, 3] : List Nat) = [(1, 2), (2, 1), (3, 3)] ∧
    frequency_count (["a", "b", "a"]) = [("a", 2), ("b", 1)] :=
  ⟨rfl, rfl⟩

/-- C4: the empty input yields an empty frequency mapping, and rendering
it completes (the rendering pipeline is a total function in the model),
producing a chart with zero bars and the usual labels. -/
theorem render_empty_ok :
    frequency_count ([] : List Nat) = [] ∧
    render ([] : List Nat) =
      { bars := [], xlabel := "Values", ylabel := "Frequency",
        title := "Histogram of Frequencies" } :=
  ⟨rfl, rfl⟩

/-- C7: the counting step is deterministic: two computations of the
frequency mapping of the same input sequence give equal mappings. -/
theorem frequency_count_deterministic (S : List α) (m₁ m₂ : List (α × Nat))
    (h₁ : frequency_count S = m₁) (h₂ : frequency_count S = m₂) : m₁ = m₂ :=
  h₁ ▸ h₂ ▸ rfl

/-- Witness for C7 at the concrete input [1,2]. -/
theorem frequency_count_deterministic_witness :
    frequency_count ([1, 2] : List Nat) = [(1, 1), (2, 1)] ∧
    ([(1, 1), (2, 1)] : List (Nat × Nat)) = [(1, 1), (2, 1)] :=
  ⟨by decide, frequency_count_deterministic [1, 2] _ _ (by decide) (by decide)⟩

lemma map_fst_bump (x : α) (m : List (α × Nat)) :
    (m.map (bump x)).map Prod.fst = m.map Prod.fst := by
  induction m with
  | nil => rfl
  | cons p t ih => by_cases h : p.1 = x <;> simp [bump, h, ih]

lemma any_key_iff (m : List (α × Nat)) (x : α) :
    m.any (fun p => decide (p.1 = x)) = true ↔ x ∈ m.map Prod.fst := by
  simp [List.any_eq_true, List.mem_map]

lemma keys_counterInsert (m : List (α × Nat)) (x : α) :
    (counterInsert m x).map Prod.fst =
      if x ∈ m.map Prod.fst then m.map Prod.fst
      else m.map Prod.fst ++ [x] := by
  unfold counterInsert
  by_cases h : x ∈ m.map Prod.fst
  · rw [if_pos ((any_key_iff m x).mpr h), if_pos h, map_fst_bump]
  · rw [if_neg (fun hc => h ((any_key_iff m x).mp hc)), if_neg h,
      List.map_append]
    rfl

lemma lookupCount_eq_zero (m : List (α × Nat)) (y : α)
    (h : y ∉ m.map Prod.fst) : lookupCount m y = 0 := by
  induction m with
  | nil => rfl
  | cons p t ih =>
    simp only [List.map_cons, List.mem_cons] at h
    push_neg at h
    simp [lookupCount, Ne.symm h.1, ih h.2]

lemma lookupCount_map_bump_ne (m : List (α × Nat)) (x y : α) (h : y ≠ x) :
    lookupCount (m.map (bump x)) y = lookupCount m y := by
  have hxy : ¬(x = y) := fun hc => h hc.symm
  induction m with
  | nil => rfl
  | cons p t ih =>
    by_cases hp : p.1 = x
    · simp [bump, lookupCount, hp, hxy, ih]
    · simp [bump, lookupCount, hp, ih]

lemma lookupCount_map_bump_self (m : List (α × Nat)) (x : α)
    (h : x ∈ m.map Prod.fst) :
    lookupCount (m.map (bump x)) x = lookupCount m x + 1 := by
  induction m with
  | nil => simp at h
  | cons p t ih =>
    by_cases hp : p.1 = x
    · simp [bump, lookupCount, hp]
    · have ht : x ∈ t.map Prod.fst := by
        simp only [List.map_cons, List.mem_cons] at h
        exact h.resolve_left (fun hc => hp hc.symm)
      simp [bump, lookupCount, hp, ih ht]

lemma lookupCount_append (m l : List (α × Nat)) (y : α) :
    lookupCount (m ++ l) y =
      if y ∈ m.map Prod.fst then lookupCount m y else lookupCount l y := by
  induction m with
  | nil => simp [lookupCount]
  | cons p t ih =>
    by_cases hp : p.1 = y
    · simp [lookupCount, hp]
    · have hp2 : ¬(y = p.1) := fun hc => hp hc.symm
      by_cases ht : y ∈ t.map Prod.fst <;>
        simp [lookupCount, hp, hp2, ht, ih]

lemma lookupCount_counterInsert (m : List (α × Nat)) (x y : α) :
    lookupCount (counterInsert m x) y =
      lookupCount m y + (if y = x then 1 else 0) := by
  unfold counterInsert
  by_cases hmem : x ∈ m.map Prod.fst
  · rw [if_pos ((any_key_iff m x).mpr hmem)]
    by_cases hyx : y = x
    · subst hyx; rw [lookupCount_map_bump_self m y hmem, if_pos rfl]
    · rw [lookupCount_map_bump_ne m x y hyx, if_neg hyx]
      omega
  · rw [if_neg (fun hc => hmem ((any_key_iff m x).mp hc)), lookupCount_append]
    by_cases hy : y ∈ m.map Prod.fst
    · have hyx : y ≠ x := fun hc => hmem (hc ▸ hy)
      rw [if_pos hy, if_neg hyx]
      omega
    · rw [if_neg hy, lookupCount_eq_zero m y hy]
      by_cases hyx : y = x
      · subst hyx; simp [lookupCount]
      · have hxy : ¬(x = y) := fun hc => hyx hc.symm
        simp [lookupCount, hxy, hyx]

lemma lookupCount_foldl (data : List α) (acc : List (α × Nat)) (y : α) :
    lookupCount (data.foldl counterInsert acc) y =
      lookupCount acc y + countOcc y data := by
  induction data generalizing acc with
  | nil => simp [countOcc]
  | cons a t ih =>
    simp only [List.foldl_cons, countOcc, ih, lookupCount_counterInsert]
    by_cases h : y = a
    · subst h
      have hone : (if y = y then 1 else 0) = 1 := if_pos rfl
      rw [hone]
      omega
    · have h2 : ¬(a = y) := fun hc => h hc.symm
      simp [h, h2]

lemma lookupCount_frequency_count (S : List α) (y : α) :
    lookupCount (frequency_count S) y = countOcc y S := by
  simpa [lookupCount] using lookupCount_foldl S [] y

lemma mem_keys_counterInsert (m : List (α × Nat)) (x y : α) :
    y ∈ (counterInsert m x).map Prod.fst ↔ y ∈ m.map Prod.fst ∨ y = x := by
  rw [keys_counterInsert]
  by_cases h : x ∈ m.map Prod.fst
  · simp only [if_pos h]
    constructor
    · exact Or.inl
    · rintro (hy | rfl)
      · exact hy
      · exact h
  · simp [if_neg h]

lemma mem_keys_foldl (data : List α) (acc : List (α × Nat)) (y : α) :
    y ∈ (data.foldl counterInsert acc).map Prod.fst ↔
      y ∈ acc.map Prod.fst ∨ y ∈ data := by
  induction data generalizing acc with
  | nil => simp
  | cons a t ih =>
    simp only [List.foldl_cons, ih, mem_keys_counterInsert, List.mem_cons]
    tauto

lemma nodup_keys_counterInsert (m : List (α × Nat)) (x : α)
    (h : (m.map Prod.fst).Nodup) :
    ((counterInsert m x).map Prod.fst).Nodup := by
  rw [keys_counterInsert]
  by_cases hm : x ∈ m.map Prod.fst
  · simpa [hm] using h
  · simp [hm, List.nodup_append, h]

lemma nodup_keys_foldl (data : List α) (acc : List (α × Nat))
    (h : (acc.map Prod.fst).Nodup) :
    ((data.foldl counterInsert acc).map Prod.fst).Nodup := by
  induction data generalizing acc with
  | nil => exact h
  | cons a t ih => exact ih _ (nodup_keys_counterInsert _ _ h)

lemma nodup_keys_frequency_count (S : List α) :
    ((frequency_count S).map Prod.fst).Nodup :=
  nodup_keys_foldl S [] (by simp)

lemma mem_keys_frequency_count (S : List α) (y : α) :
    y ∈ (frequency_count S).map Prod.fst ↔ y ∈ S := by
  simpa using mem_keys_foldl S [] y

/-- C1: the key set of the frequency mapping is exactly the set of
distinct elements of the input: the keys are pairwise distinct (each
distinct element appears as exactly one key) and an element is a key
precisely when it occurs in the input. -/
theorem frequency_count_keys_exact (S : List α) :
    ((frequency_count S).map Prod.fst).Nodup ∧
    ∀ x, x ∈ (frequency_count S).map Prod.fst ↔ x ∈ S :=
  ⟨nodup_keys_frequency_count S, fun x => mem_keys_frequency_count S x⟩

/-- C8: counting is a total pure function: for every input sequence over
a type with decidable equality the counting step produces a frequency
mapping, characterized pointwise by the occurrence counts of the input;
there is no failing input and no side effect in the model. -/
theorem frequency_count_total_on_all_inputs (S : List α) (y : α) :
    lookupCount (frequency_count S) y = countOcc y S :=
  lookupCount_frequency_count S y

lemma map_bump_of_not_mem (x : α) (m : List (α × Nat))
    (h : x ∉ m.map Prod.fst) : m.map (bump x) = m := by
  induction m with
  | nil => rfl
  | cons p t ih =>
    simp only [List.map_cons, List.mem_cons] at h
    push_neg at h
    simp [bump, Ne.symm h.1, ih h.2]

lemma sum_map_bump (m : List (α × Nat)) (x : α)
    (hnd : (m.map Prod.fst).Nodup) (hx : x ∈ m.map Prod.fst) :
    ((m.map (bump x)).map Prod.snd).sum = (m.map Prod.snd).sum + 1 := by
  induction m with
  | nil => simp at hx
  | cons p t ih =>
    simp only [List.map_cons, List.nodup_cons] at hnd
    by_cases hp : p.1 = x
    · have ht : x ∉ t.map Prod.fst := by rw [← hp]; exact hnd.1
      rw [List.map_cons, map_bump_of_not_mem x t ht]
      simp [bump, hp]
      omega
    · have hx2 : x ∈ t.map Prod.fst := by
        simp only [List.map_cons, List.mem_cons] at hx
        exact hx.resolve_left (fun hc => hp hc.symm)
      rw [List.map_cons, List.map_cons, List.map_cons, List.sum_cons,
        List.sum_cons, ih hnd.2 hx2]
      have hb : (bump x p).2 = p.2 := by simp [bump, hp]
      rw [hb]
      omega

lemma sum_counterInsert (m : List (α × Nat)) (x : α)
    (hnd : (m.map Prod.fst).Nodup) :
    ((counterInsert m x).map Prod.snd).sum = (m.map Prod.snd).sum + 1 := by
  unfold counterInsert
  by_cases hmem : x ∈ m.map Prod.fst
  · rw [if_pos ((any_key_iff m x).mpr hmem)]
    exact sum_map_bump m x hnd hmem
  · rw [if_neg (fun hc => hmem ((any_key_iff m x).mp hc))]
    simp

lemma sum_foldl (data : List α) (acc : List (α × Nat))
    (hnd : (acc.map Prod.fst).Nodup) :
    ((data.foldl counterInsert acc).map Prod.snd).sum =
      (acc.map Prod.snd).sum + data.length := by
  induction data generalizing acc with
  | nil => simp
  | cons a t ih =>
    rw [List.foldl_cons, ih _ (nodup_keys_counterInsert acc a hnd),
      sum_counterInsert acc a hnd, List.length_cons]
    omega

lemma pos_counterInsert (m : List (α × Nat)) (x : α)
    (h : ∀ p ∈ m, 0 < p.2) : ∀ p ∈ counterInsert m x, 0 < p.2 := by
  intro p hp
  unfold counterInsert at hp
  by_cases hc : m.any (fun q => decide (q.1 = x)) = true
  · rw [if_pos hc] at hp
    rcases List.mem_map.mp hp with ⟨q, hq, rfl⟩
    have hq2 := h q hq
    unfold bump
    by_cases hqx : q.1 = x <;> simp [hqx] <;> omega
  · rw [if_neg hc] at hp
    rcases List.mem_append.mp hp with hq | hq
    · exact h p hq
    · simp at hq
      simp [hq]

lemma pos_foldl (data : List α) (acc : List (α × Nat))
    (h : ∀ p ∈ acc, 0 < p.2) : ∀ p ∈ data.foldl counterInsert acc, 0 < p.2 := by
  induction data generalizing acc with
  | nil => exact h
  | cons a t ih => exact ih _ (pos_counterInsert acc a h)

lemma lookupCount_of_mem (m : List (α × Nat)) (p : α × Nat)
    (hnd : (m.map Prod.fst).Nodup) (hp : p ∈ m) :
    lookupCount m p.1 = p.2 := by
  induction m with
  | nil => simp at hp
  | cons q t ih =>
    simp only [List.map_cons, List.nodup_cons] at hnd
    rcases List.mem_cons.mp hp with rfl | hpt
    · simp [lookupCount]
    · have hq : ¬(q.1 = p.1) := by
        intro hc
        apply hnd.1
        rw [hc]
        exact List.mem_map.mpr ⟨p, hpt, rfl⟩
      simp [lookupCount, hq, ih hnd.2 hpt]

lemma snd_eq_countOcc (S : List α) (p : α × Nat)
    (hp : p ∈ frequency_count S) : p.2 = countOcc p.1 S := by
  rw [← lookupCount_of_mem (frequency_count S) p
      (nodup_keys_frequency_count S) hp,
    lookupCount_frequency_count]

lemma zip_fst_snd (m : List (α × Nat)) :
    (m.map Prod.fst).zip (m.map Prod.snd) = m := by
  induction m with
  | nil => rfl
  | cons p t ih => simp [ih]

lemma render_bars_eq (S : List α) : (render S).bars = frequency_count S := by
  simp [render, plt_show, plt_title, plt_ylabel, plt_xlabel, plt_bar,
    values, frequencies, zip_fst_snd]

/-- C2: the counts in the frequency mapping sum to the length of the
input sequence. -/
theorem frequency_count_sum_eq_length (S : List α) :
    ((frequency_count S).map Prod.snd).sum = S.length := by
  simpa using sum_foldl S [] (by simp)

/-- C6: every count stored in the frequency mapping is a positive
integer; no key is mapped to zero or less. -/
theorem frequency_count_counts_pos (S : List α) :
    ∀ p ∈ frequency_count S, 0 < p.2 :=
  pos_foldl S [] (by simp)

/-- Witness for C6: the entry (1, 2) of the frequency mapping of [1, 1]
has positive count. -/
theorem frequency_count_counts_pos_witness :
    ((1, 2) ∈ frequency_count ([1, 1] : List Nat)) ∧
    0 < ((1, 2) : Nat × Nat).2 :=
  ⟨by decide, frequency_count_counts_pos [1, 1] (1, 2) (by decide)⟩

/-- C9: the values and frequencies lists handed to the renderer are
index-aligned: they have the same length, and the frequency at each
index is the occurrence count, in the input, of the value at the same
index. -/
theorem render_lists_aligned (S : List α) :
    (values S).length = (frequencies S).length ∧
    ∀ i (hv : i < (values S).length) (hf : i < (frequencies S).length),
      (frequencies S).get ⟨i, hf⟩ = countOcc ((values S).get ⟨i, hv⟩) S := by
  constructor
  · simp [values, frequencies]
  · intro i hv hf
    have hfc : i < (frequency_count S).length := by
      simpa [values] using hv
    have h1 : (values S).get ⟨i, hv⟩ = ((frequency_count S).get ⟨i, hfc⟩).1 := by
      simp [values]
    have h2 : (frequencies S).get ⟨i, hf⟩ =
        ((frequency_count S).get ⟨i, hfc⟩).2 := by
      simp [frequencies]
    rw [h1, h2]
    exact snd_eq_countOcc S _ (List.get_mem _ _ _)

/-- Witness for C9 at the concrete input [1, 1, 2] and index 0. -/
theorem render_lists_aligned_witness :
    (0 < (values ([1, 1, 2] : List Nat)).length) ∧
    (0 < (frequencies ([1, 1, 2] : List Nat)).length) ∧
    (frequencies ([1, 1, 2] : List Nat)).get ⟨0, by decide⟩ =
      countOcc ((values ([1, 1, 2] : List Nat)).get ⟨0, by decide⟩) [1, 1, 2] :=
  ⟨by decide, by decide,
    (render_lists_aligned [1, 1, 2]).2 0 (by decide) (by decide)⟩

/-- C5: the chart has one bar per distinct value of the input (bar
positions are pairwise distinct and are exactly the elements of the
input), the bar at a value has its occurrence count as height, and the
axis labels and title are the strings Values, Frequency and Histogram
of Frequencies. -/
theorem render_bars_and_labels (S : List α) :
    ((render S).bars.map Prod.fst).Nodup ∧
    (∀ x, x ∈ (render S).bars.map Prod.fst ↔ x ∈ S) ∧
    (∀ y, lookupCount (render S).bars y = countOcc y S) ∧
    (render S).xlabel = "Values" ∧
    (render S).ylabel = "Frequency" ∧
    (render S).title = "Histogram of Frequencies" := by
  rw [render_bars_eq]
  exact ⟨nodup_keys_frequency_count S,
    fun x => mem_keys_frequency_count S x,
    fun y => lookupCount_frequency_count S y,
    rfl, rfl, rfl⟩

lemma dedupFirst_filter (q : α → Bool) (l : List α) :
    dedupFirst (l.filter q) = (dedupFirst l).filter q := by
  induction l with
  | nil => rfl
  | cons a t ih =>
    by_cases hq : q a = true
    · rw [List.filter_cons_of_pos hq]
      simp only [dedupFirst]
      rw [ih, List.filter_cons_of_pos hq, List.filter_filter,
        List.filter_filter]
      congr 1
      apply List.filter_congr
      intro x _
      exact Bool.and_comm _ _
    · rw [List.filter_cons_of_neg hq, ih]
      simp only [dedupFirst]
      rw [List.filter_cons_of_neg hq, List.filter_filter]
      symm
      apply List.filter_congr
      intro x _
      by_cases hxa : x = a
      · subst hxa
        have hqf : q x = false := by
          revert hq
          cases q x <;> simp
        simp [hqf]
      · simp [hxa]

lemma keys_foldl_dedup (data : List α) (acc : List (α × Nat)) :
    (data.foldl counterInsert acc).map Prod.fst =
      acc.map Prod.fst ++
        dedupFirst (data.filter
          (fun z => decide (z ∉ acc.map Prod.fst))) := by
  induction data generalizing acc with
  | nil => simp [dedupFirst]
  | cons a t ih =>
    rw [List.foldl_cons, ih, keys_counterInsert]
    by_cases h : a ∈ acc.map Prod.fst
    · rw [if_pos h, List.filter_cons_of_neg (by simp [h])]
    · rw [if_neg h, List.filter_cons_of_pos (by simp [h])]
      simp only [dedupFirst]
      rw [List.append_assoc, List.singleton_append]
      congr 2
      rw [← dedupFirst_filter, List.filter_filter]
      congr 1
      apply List.filter_congr
      intro z _
      by_cases hzK : z ∈ acc.map Prod.fst <;> by_cases hza : z = a <;>
        simp [hzK, hza]

/-- C10: the keys of the frequency mapping, and hence the values list
handed to the renderer, list the distinct elements of the input in order
of first occurrence. -/
theorem frequency_count_keys_first_occurrence (S : List α) :
    (frequency_count S).map Prod.fst = dedupFirst S := by
  have h := keys_foldl_dedup S []
  simpa [frequency_count] using h

end Quriust
